import Mathlib

/-!
Verification development for the sparse-Hamiltonian / streaming-QFI /
stress-energy pipeline (scripts/QIF/Ona: qfi_streaming.py, stress_energy.py,
l4_exact_qfi_baseline.py), over the real-number semantics of the
floating-point code.  Complex state vectors live in `Fin N → ℂ`, sparse
operators are embedded as plain matrices (sparsity is a storage concern
with no semantic content), and `np.vdot` is the conjugate-linear-in-the-
first-argument dot product.
-/

open scoped BigOperators Matrix ComplexConjugate

noncomputable section

/-- Embedding of `np.vdot(x, y) = Σ conj(x_k) y_k`, conjugate-linear in the first slot. -/
def vdot {N : ℕ} (x y : Fin N → ℂ) : ℂ :=
  Matrix.dotProduct (star x) y

/-- Embedding of `apply_generator_sparse(psi, gen) = gen @ psi` (qfi_streaming.py, line 22):
a single sparse matrix-vector product. -/
def apply_generator_sparse {N : ℕ} (psi : Fin N → ℂ) (gen : Matrix (Fin N) (Fin N) ℂ) :
    Fin N → ℂ :=
  gen.mulVec psi

/-- Embedding of `compute_local_qfi_element(psi, gen_i, gen_j)` (qfi_streaming.py, lines 31-77).
The unused `epsilon` keyword argument of the source (never read in the body)
is omitted.  All four expectation values arise from matrix-vector products of
a generator against `psi` (or against `G psi`), exactly as in the source. -/
def compute_local_qfi_element {N : ℕ} (psi : Fin N → ℂ)
    (gen_i gen_j : Matrix (Fin N) (Fin N) ℂ) : ℝ :=
  let Gi_psi := apply_generator_sparse psi gen_i
  let Gj_psi := apply_generator_sparse psi gen_j
  let exp_Gi := (vdot psi Gi_psi).re
  let exp_Gj := (vdot psi Gj_psi).re
  let exp_GiGj := (vdot psi (apply_generator_sparse Gj_psi gen_i)).re
  let exp_GjGi := (vdot psi (apply_generator_sparse Gi_psi gen_j)).re
  let exp_anticomm := (exp_GiGj + exp_GjGi) / 2
  2 * (exp_anticomm - exp_Gi * exp_Gj)

/-- Embedding of `compute_qfi_matrix_streaming(psi, generators, sites=None, regularization)`
(qfi_streaming.py, lines 80-128) with the default site set
`sites = list(range(len(generators)))`.  The double loop writes entry
`(i, j)` for `j ≥ i` from one call to `compute_local_qfi_element` and mirrors
the same value to `(j, i)`; each entry of `F` is written exactly once with
the value below (`F[i,j]` at iteration `(i,j)` when `i ≤ j`, `F[i,j]` at
iteration `(j,i)` otherwise).  The metric is `g = F / 4.0 + ε * eye(n)`;
entrywise division by the scalar `4.0` is scalar multiplication by `4⁻¹`. -/
def compute_qfi_matrix_streaming {N n : ℕ} (psi : Fin N → ℂ)
    (generators : Fin n → Matrix (Fin N) (Fin N) ℂ) (regularization : ℝ) :
    Matrix (Fin n) (Fin n) ℝ × Matrix (Fin n) (Fin n) ℝ :=
  let F : Matrix (Fin n) (Fin n) ℝ := Matrix.of fun i j =>
    if (i : ℕ) ≤ (j : ℕ) then compute_local_qfi_element psi (generators i) (generators j)
    else compute_local_qfi_element psi (generators j) (generators i)
  (F, (4 : ℝ)⁻¹ • F + regularization • (1 : Matrix (Fin n) (Fin n) ℝ))

/-- The `free_intercept=False` branch of `fit_einstein_relation(G, T, ...)`
(l4_exact_qfi_baseline.py, lines 273-281): forced-origin fit
`κ = Σ G·T / Σ T²`, `b = 0`, `R² = 1 - SS_res/SS_tot` with `SS_tot = Σ G²`.
The `free_intercept=True` branch delegates to `scipy.stats.linregress` and is
outside the claims.  The source performs no guard: on `Σ T² = 0` the numpy
float division emits a warning and yields NaN without raising; the embedding
is total, with the real-field convention `x / 0 = 0` standing in for that
non-signaling NaN. -/
def fit_einstein_relation_forced {m : ℕ} (G T : Fin m → ℝ) : ℝ × ℝ × ℝ :=
  let kappa := (∑ i, G i * T i) / (∑ i, T i * T i)
  let b : ℝ := 0
  let SS_res := ∑ i, (G i - kappa * T i) ^ 2
  let SS_tot := ∑ i, G i ^ 2
  (kappa, b, 1 - SS_res / SS_tot)

/-- Embedding of `compute_geometry_from_qfi(g, regularization)` (l4_exact_qfi_baseline.py,
lines 210-245): Ricci scalar `trace(g)`, Ricci diagonal
`diag(g) - mean(diag(g))` (with `np.mean = sum / n`), Einstein diagonal
`R_diag - 0.5 * R_scalar * diag(g)`.  The `regularization` argument is
accepted and never read, as in the source. -/
def compute_geometry_from_qfi {n : ℕ} (g : Matrix (Fin n) (Fin n) ℝ)
    (regularization : ℝ) : (Fin n → ℝ) × (Fin n → ℝ) :=
  let R_scalar := Matrix.trace g
  let R_diag := fun i => g i i - (∑ j, g j j) / (n : ℝ)
  let G_diag := fun i => R_diag i - 0.5 * R_scalar * g i i
  (R_diag, G_diag)

/-- The regime classification of `run_l4_validation` (l4_exact_qfi_baseline.py,
lines 449-455): `< 0.3 → "linear"`, `< 0.7 → "geometric"`, else
`"breakdown"`. -/
def classify_regime (avg_activation : ℝ) : String :=
  if avg_activation < 0.3 then "linear"
  else if avg_activation < 0.7 then "geometric"
  else "breakdown"

/-- The scalar the orchestrator feeds to the classifier (line 449):
`avg_activation = np.linalg.norm(ΔT) / N_sites`. -/
def avg_activation_of {m : ℕ} (dT : Fin m → ℝ) (N_sites : ℕ) : ℝ :=
  Real.sqrt (∑ i, dT i ^ 2) / (N_sites : ℝ)

/-- Pauli `σ^x`, as laid out in the sources. -/
def sigma_x : Matrix (Fin 2) (Fin 2) ℝ := !![0, 1; 1, 0]

/-- Pauli `σ^z`. -/
def sigma_z : Matrix (Fin 2) (Fin 2) ℝ := !![1, 0; 0, -1]

/-- Bit `k` of the basis index `a`, big-endian: the left fold
`result = kron(result, op_k)` over sites `k = 0..N-1` gives site 0 the most
significant bit of the flattened index. -/
def bitAt (N k a : ℕ) : Fin 2 :=
  ⟨a / 2 ^ (N - 1 - k) % 2, Nat.mod_lt _ (by norm_num)⟩

/-- Embedding of `build_operator(ops)` (stress_energy.py lines 60-82, and the identical
helper in l4_exact_qfi_baseline.py lines 82-95): the ordered Kronecker
product over sites `k = 0..N-1` of `ops[k]` (identity when `k ∉ ops`).
Iterated `kron` has entries `(a, b) ↦ Π_k op_k[a_k, b_k]` over the flattened
big-endian indices, which is the form embedded here.  Python's `k in ops`
membership test makes keys outside `range(N)` silently irrelevant. -/
def build_operator (N : ℕ) (ops : ℕ → Option (Matrix (Fin 2) (Fin 2) ℝ)) :
    Matrix (Fin (2 ^ N)) (Fin (2 ^ N)) ℝ :=
  Matrix.of fun a b => ∏ k ∈ Finset.range N, ((ops k).getD 1) (bitAt N k a) (bitAt N k b)

/-- The Ising bond operator `σ^z_i σ^z_j`: the `ops = {site: σz, neighbor: σz}`
call of `build_operator`. -/
def zzOp (L i j : ℕ) : Matrix (Fin (2 ^ (L * L))) (Fin (2 ^ (L * L))) ℝ :=
  build_operator (L * L) fun k => if k = i ∨ k = j then some sigma_z else none

/-- The field operator `σ^x_i`: the `ops = {site: σx}` call of
`build_operator`. -/
def xOp (L i : ℕ) : Matrix (Fin (2 ^ (L * L))) (Fin (2 ^ (L * L))) ℝ :=
  build_operator (L * L) fun k => if k = i then some sigma_x else none

/-- The neighbor list built in `build_local_hamiltonian_tfim_2d`
(stress_energy.py lines 90-99): left, right, down, up, guarded by
`ix = site % L`, `iy = site // L`. -/
def localNeighbors (L site : ℕ) : List ℕ :=
  (if 0 < site % L then [site - 1] else []) ++
  (if site % L < L - 1 then [site + 1] else []) ++
  (if 0 < site / L then [site - L] else []) ++
  (if site / L < L - 1 then [site + L] else [])

/-- The Ising part of the local Hamiltonian at `site`:
`Σ_{n ∈ neighbors(site)} -J · σ^z_site σ^z_n` (stress_energy.py lines
101-104). -/
def local_bond_part (L : ℕ) (J : ℝ) (site : ℕ) :
    Matrix (Fin (2 ^ (L * L))) (Fin (2 ^ (L * L))) ℝ :=
  ((localNeighbors L site).map fun n => (-J) • zzOp L site n).sum

/-- The body of `build_local_hamiltonian_tfim_2d(L, J, h, site)`
(stress_energy.py lines 21-110) once `site` is a supplied integer: incident
bond terms plus the field term `-h · σ^x_site`.  No range check is performed
on `site`. -/
def build_local_hamiltonian_core (L : ℕ) (J h : ℝ) (site : ℕ) :
    Matrix (Fin (2 ^ (L * L))) (Fin (2 ^ (L * L))) ℝ :=
  local_bond_part L J site + (-h) • xOp L site

/-- Embedding of `build_local_hamiltonian_tfim_2d` with its only failure path — the
`site is None` check (`raise ValueError(...)`) — embedded as `Except`. -/
def build_local_hamiltonian_tfim_2d (L : ℕ) (J h : ℝ) (site : Option ℕ) :
    Except String (Matrix (Fin (2 ^ (L * L))) (Fin (2 ^ (L * L))) ℝ) :=
  match site with
  | none => Except.error "Must specify site for local Hamiltonian"
  | some s => Except.ok (build_local_hamiltonian_core L J h s)

/-- Embedding of `build_sparse_tfim_hamiltonian(L, J, h, delta_h)` (l4_exact_qfi_baseline.py
lines 43-122): right/up bond terms `-J σ^z_i σ^z_j` plus field terms
`-(h + δh_i) σ^x_i`; `delta_h=None` corresponds to `fun _ => 0`. -/
def build_sparse_tfim_hamiltonian (L : ℕ) (J h : ℝ) (delta_h : ℕ → ℝ) :
    Matrix (Fin (2 ^ (L * L))) (Fin (2 ^ (L * L))) ℝ :=
  (∑ i ∈ Finset.range (L * L),
      ((if i % L < L - 1 then (-J) • zzOp L i (i + 1) else 0) +
       (if i / L < L - 1 then (-J) • zzOp L i (i + L) else 0))) +
  ∑ i ∈ Finset.range (L * L), (-(h + delta_h i)) • xOp L i

lemma compute_local_qfi_element_symm {N : ℕ} (psi : Fin N → ℂ)
    (A B : Matrix (Fin N) (Fin N) ℂ) :
    compute_local_qfi_element psi A B = compute_local_qfi_element psi B A := by
  unfold compute_local_qfi_element
  ring

lemma qfi_matrix_entry {N n : ℕ} (psi : Fin N → ℂ)
    (generators : Fin n → Matrix (Fin N) (Fin N) ℂ) (regularization : ℝ) (i j : Fin n) :
    (compute_qfi_matrix_streaming psi generators regularization).1 i j
      = compute_local_qfi_element psi (generators i) (generators j) := by
  show (if (i : ℕ) ≤ (j : ℕ) then _ else _) = _
  split
  · rfl
  · exact compute_local_qfi_element_symm psi (generators j) (generators i)

lemma qfi_matrix_transpose {N n : ℕ} (psi : Fin N → ℂ)
    (generators : Fin n → Matrix (Fin N) (Fin N) ℂ) (regularization : ℝ) :
    ((compute_qfi_matrix_streaming psi generators regularization).1)ᵀ
      = (compute_qfi_matrix_streaming psi generators regularization).1 := by
  ext i j
  rw [Matrix.transpose_apply, qfi_matrix_entry, qfi_matrix_entry]
  exact compute_local_qfi_element_symm psi (generators j) (generators i)

/-- C1: for every state `psi` and list of generators, every entry `F i j` of
the matrix returned by `compute_qfi_matrix_streaming` equals
`2 * ((Re⟨psi|G_i G_j|psi⟩ + Re⟨psi|G_j G_i|psi⟩)/2 - Re⟨G_i⟩ * Re⟨G_j⟩)`,
each bracket a composition of matrix-vector products of a generator against
the state, and the returned metric is `g = F/4 + ε·I`. -/
theorem claim_C1 {N n : ℕ} (psi : Fin N → ℂ)
    (generators : Fin n → Matrix (Fin N) (Fin N) ℂ) (epsilon : ℝ) :
    (∀ i j : Fin n,
      (compute_qfi_matrix_streaming psi generators epsilon).1 i j =
        2 * (((vdot psi ((generators i).mulVec ((generators j).mulVec psi))).re +
              (vdot psi ((generators j).mulVec ((generators i).mulVec psi))).re) / 2 -
             (vdot psi ((generators i).mulVec psi)).re *
               (vdot psi ((generators j).mulVec psi)).re)) ∧
    (compute_qfi_matrix_streaming psi generators epsilon).2 =
      (4 : ℝ)⁻¹ • (compute_qfi_matrix_streaming psi generators epsilon).1 +
        epsilon • (1 : Matrix (Fin n) (Fin n) ℝ) := by
  refine ⟨fun i j => ?_, rfl⟩
  rw [qfi_matrix_entry]
  rfl

/-- C7: the QFI matrix returned by `compute_qfi_matrix_streaming` (default
full site set) is exactly equal to its transpose, entry for entry. -/
theorem claim_C7 {N n : ℕ} (psi : Fin N → ℂ)
    (generators : Fin n → Matrix (Fin N) (Fin N) ℂ) (epsilon : ℝ) :
    ((compute_qfi_matrix_streaming psi generators epsilon).1)ᵀ
      = (compute_qfi_matrix_streaming psi generators epsilon).1 :=
  qfi_matrix_transpose psi generators epsilon

lemma vdot_conj {N : ℕ} (x y : Fin N → ℂ) : star (vdot x y) = vdot y x := by
  simp [vdot, Matrix.dotProduct, star_sum, star_mul, Pi.star_apply]

lemma vdot_self_re_nonneg {N : ℕ} (x : Fin N → ℂ) : 0 ≤ (vdot x x).re := by
  rw [vdot, Matrix.dotProduct, Complex.re_sum]
  refine Finset.sum_nonneg fun k _ => ?_
  have h1 : (star x) k * x k = ((Complex.normSq (x k) : ℝ) : ℂ) := by
    rw [Pi.star_apply, Complex.star_def, ← Complex.normSq_eq_conj_mul_self]
  rw [h1, Complex.ofReal_re]
  exact Complex.normSq_nonneg _

lemma vdot_mulVec_hermitian {N : ℕ} (G : Matrix (Fin N) (Fin N) ℂ) (hG : Gᴴ = G)
    (x y : Fin N → ℂ) : vdot x (G.mulVec y) = vdot (G.mulVec x) y := by
  unfold vdot
  rw [Matrix.dotProduct_mulVec, Matrix.star_mulVec, hG]

/-- Gram form of a single QFI element: with Hermitian generators and a
unit-norm state, `F_ij = 2 Re⟨u_i, u_j⟩` where `u_i = G_i ψ − ⟨G_i⟩ ψ`. -/
lemma compute_local_qfi_element_gram {N : ℕ} (psi : Fin N → ℂ)
    (A B : Matrix (Fin N) (Fin N) ℂ) (hA : Aᴴ = A) (hB : Bᴴ = B)
    (hpsi : vdot psi psi = 1) :
    compute_local_qfi_element psi A B =
      2 * (vdot (A.mulVec psi - ((vdot psi (A.mulVec psi)).re : ℂ) • psi)
               (B.mulVec psi - ((vdot psi (B.mulVec psi)).re : ℂ) • psi)).re := by
  have key1 : vdot psi (A.mulVec (B.mulVec psi)) = vdot (A.mulVec psi) (B.mulVec psi) :=
    vdot_mulVec_hermitian A hA psi (B.mulVec psi)
  have key2 : vdot psi (B.mulVec (A.mulVec psi)) = vdot (B.mulVec psi) (A.mulVec psi) :=
    vdot_mulVec_hermitian B hB psi (A.mulVec psi)
  have key3 : (vdot (B.mulVec psi) (A.mulVec psi)).re
      = (vdot (A.mulVec psi) (B.mulVec psi)).re := by
    rw [← vdot_conj (A.mulVec psi) (B.mulVec psi), Complex.star_def, Complex.conj_re]
  have key4 : (vdot (A.mulVec psi) psi).re = (vdot psi (A.mulVec psi)).re := by
    rw [← vdot_conj psi (A.mulVec psi), Complex.star_def, Complex.conj_re]
  have expand : vdot (A.mulVec psi - ((vdot psi (A.mulVec psi)).re : ℂ) • psi)
      (B.mulVec psi - ((vdot psi (B.mulVec psi)).re : ℂ) • psi)
      = vdot (A.mulVec psi) (B.mulVec psi)
        - ((vdot psi (B.mulVec psi)).re : ℂ) * vdot (A.mulVec psi) psi
        - ((vdot psi (A.mulVec psi)).re : ℂ) * vdot psi (B.mulVec psi)
        + ((vdot psi (A.mulVec psi)).re : ℂ) * (((vdot psi (B.mulVec psi)).re : ℂ)
            * vdot psi psi) := by
    unfold vdot
    rw [star_sub, star_smul, Complex.star_def, Complex.conj_ofReal]
    rw [Matrix.sub_dotProduct, Matrix.dotProduct_sub, Matrix.dotProduct_sub,
      Matrix.smul_dotProduct, Matrix.smul_dotProduct, Matrix.dotProduct_smul,
      Matrix.dotProduct_smul]
    simp only [smul_eq_mul]
    ring
  rw [expand, hpsi]
  unfold compute_local_qfi_element apply_generator_sparse
  dsimp only
  rw [key1, key2, key3]
  simp only [Complex.sub_re, Complex.add_re, Complex.mul_re, Complex.ofReal_re,
    Complex.ofReal_im, Complex.one_re, Complex.one_im, mul_one, mul_zero, zero_mul,
    sub_zero, zero_sub]
  rw [key4]
  ring

lemma vdot_sum_smul {N n : ℕ} (x : Fin n → ℝ) (u : Fin n → Fin N → ℂ) :
    vdot (∑ i, ((x i : ℂ)) • u i) (∑ j, ((x j : ℂ)) • u j)
      = ∑ i, ∑ j, ((x i : ℂ) * (x j : ℂ)) * vdot (u i) (u j) := by
  unfold vdot
  simp only [Matrix.dotProduct, Finset.sum_apply, Pi.smul_apply, Pi.star_apply,
    smul_eq_mul, star_sum, star_mul', Complex.star_def, Complex.conj_ofReal,
    Finset.mul_sum, Finset.sum_mul]
  conv_rhs => rw [Finset.sum_comm]
  rw [Finset.sum_comm]
  refine Finset.sum_congr rfl fun i _ => ?_
  rw [Finset.sum_comm]
  refine Finset.sum_congr rfl fun j _ => ?_
  refine Finset.sum_congr rfl fun k _ => ?_
  ring

/-- The quadratic form of the raw QFI matrix is nonnegative for Hermitian
generators and a unit-norm state: it is (four times) a Gram matrix. -/
lemma qfi_quadform_nonneg {N n : ℕ} (psi : Fin N → ℂ)
    (generators : Fin n → Matrix (Fin N) (Fin N) ℂ) (regularization : ℝ)
    (hherm : ∀ i, (generators i)ᴴ = generators i) (hpsi : vdot psi psi = 1)
    (x : Fin n → ℝ) :
    0 ≤ Matrix.dotProduct x
        (((compute_qfi_matrix_streaming psi generators regularization).1).mulVec x) := by
  let u : Fin n → Fin N → ℂ := fun i =>
    (generators i).mulVec psi - ((vdot psi ((generators i).mulVec psi)).re : ℂ) • psi
  have hF : ∀ i j, (compute_qfi_matrix_streaming psi generators regularization).1 i j
      = 2 * (vdot (u i) (u j)).re := fun i j => by
    rw [qfi_matrix_entry]
    exact compute_local_qfi_element_gram psi _ _ (hherm i) (hherm j) hpsi
  have h1 : Matrix.dotProduct x
      (((compute_qfi_matrix_streaming psi generators regularization).1).mulVec x)
      = ∑ i, ∑ j, x i * x j * (2 * (vdot (u i) (u j)).re) := by
    simp only [Matrix.dotProduct, Matrix.mulVec, Finset.mul_sum]
    refine Finset.sum_congr rfl fun i _ => Finset.sum_congr rfl fun j _ => ?_
    rw [hF i j]
    ring
  have h2 : (vdot (∑ i, ((x i : ℂ)) • u i) (∑ i, ((x i : ℂ)) • u i)).re
      = ∑ i, ∑ j, x i * x j * (vdot (u i) (u j)).re := by
    rw [vdot_sum_smul, Complex.re_sum]
    refine Finset.sum_congr rfl fun i _ => ?_
    rw [Complex.re_sum]
    refine Finset.sum_congr rfl fun j _ => ?_
    rw [← Complex.ofReal_mul, Complex.re_ofReal_mul]
  have h3 : ∑ i, ∑ j, x i * x j * (2 * (vdot (u i) (u j)).re)
      = 2 * ∑ i, ∑ j, x i * x j * (vdot (u i) (u j)).re := by
    rw [Finset.mul_sum]
    refine Finset.sum_congr rfl fun i _ => ?_
    rw [Finset.mul_sum]
    refine Finset.sum_congr rfl fun j _ => ?_
    ring
  have h4 := vdot_self_re_nonneg (∑ i, ((x i : ℂ)) • u i)
  rw [h1, h3, ← h2]
  linarith

lemma dotProduct_self_nonneg_real {n : ℕ} (x : Fin n → ℝ) :
    0 ≤ Matrix.dotProduct x x :=
  Finset.sum_nonneg fun k _ => mul_self_nonneg (x k)

lemma metric_quadform {N n : ℕ} (psi : Fin N → ℂ)
    (generators : Fin n → Matrix (Fin N) (Fin N) ℂ) (epsilon : ℝ) (x : Fin n → ℝ) :
    Matrix.dotProduct x
        (((compute_qfi_matrix_streaming psi generators epsilon).2).mulVec x)
      = (4 : ℝ)⁻¹ * Matrix.dotProduct x
          (((compute_qfi_matrix_streaming psi generators epsilon).1).mulVec x)
        + epsilon * Matrix.dotProduct x x := by
  have hg : (compute_qfi_matrix_streaming psi generators epsilon).2
      = (4 : ℝ)⁻¹ • (compute_qfi_matrix_streaming psi generators epsilon).1
        + epsilon • (1 : Matrix (Fin n) (Fin n) ℝ) := rfl
  rw [hg, Matrix.add_mulVec, Matrix.dotProduct_add, Matrix.smul_mulVec_assoc,
    Matrix.smul_mulVec_assoc, Matrix.one_mulVec, Matrix.dotProduct_smul,
    Matrix.dotProduct_smul, smul_eq_mul, smul_eq_mul]

/-- C3: for a unit-norm state, Hermitian generators and any regularization
`ε > 0`, the metric `g = F/4 + ε·I` returned by
`compute_qfi_matrix_streaming` is positive semidefinite, and its quadratic
form is bounded below by `ε‖x‖²` — the Rayleigh-quotient statement that
every eigenvalue of `g` is at least `ε`. -/
theorem claim_C3 {N n : ℕ} (psi : Fin N → ℂ)
    (generators : Fin n → Matrix (Fin N) (Fin N) ℂ) (epsilon : ℝ)
    (hherm : ∀ i, (generators i)ᴴ = generators i) (hpsi : vdot psi psi = 1)
    (heps : 0 < epsilon) :
    ((compute_qfi_matrix_streaming psi generators epsilon).2).PosSemidef ∧
    ∀ x : Fin n → ℝ,
      epsilon * Matrix.dotProduct x x ≤
        Matrix.dotProduct x
          (((compute_qfi_matrix_streaming psi generators epsilon).2).mulVec x) := by
  have key : ∀ x : Fin n → ℝ,
      epsilon * Matrix.dotProduct x x ≤
        Matrix.dotProduct x
          (((compute_qfi_matrix_streaming psi generators epsilon).2).mulVec x) := by
    intro x
    rw [metric_quadform]
    have hFq := qfi_quadform_nonneg psi generators epsilon hherm hpsi x
    have h4 : 0 ≤ (4 : ℝ)⁻¹ * Matrix.dotProduct x
        (((compute_qfi_matrix_streaming psi generators epsilon).1).mulVec x) :=
      mul_nonneg (by norm_num) hFq
    linarith
  refine ⟨⟨?_, ?_⟩, key⟩
  · rw [Matrix.IsHermitian, Matrix.conjTranspose_eq_transpose_of_trivial]
    have hg : (compute_qfi_matrix_streaming psi generators epsilon).2
        = (4 : ℝ)⁻¹ • (compute_qfi_matrix_streaming psi generators epsilon).1
          + epsilon • (1 : Matrix (Fin n) (Fin n) ℝ) := rfl
    rw [hg, Matrix.transpose_add, Matrix.transpose_smul, Matrix.transpose_smul,
      Matrix.transpose_one, qfi_matrix_transpose]
  · intro x
    have hx : (star x : Fin n → ℝ) = x := funext fun k => star_trivial (x k)
    rw [hx]
    have := key x
    have hxx := dotProduct_self_nonneg_real x
    nlinarith

/-- Witness for C3 at a concrete input: the one-site system with state
`ψ = (1)`, the zero generator and `ε = 1`. -/
theorem claim_C3_witness :
    (1 : ℝ) * Matrix.dotProduct (fun _ : Fin 1 => (1 : ℝ)) (fun _ => (1 : ℝ)) ≤
      Matrix.dotProduct (fun _ : Fin 1 => (1 : ℝ))
        (((compute_qfi_matrix_streaming (fun _ : Fin 1 => (1 : ℂ))
            (fun _ : Fin 1 => (0 : Matrix (Fin 1) (Fin 1) ℂ)) 1).2).mulVec
          fun _ => (1 : ℝ)) :=
  (claim_C3 (fun _ => 1) (fun _ => 0) 1
      (fun _ => by simp)
      (by simp [vdot, Matrix.dotProduct])
      one_pos).2 (fun _ => 1)

/-- C4: the forced-origin fit returns `κ = Σ G·T / Σ T²`, intercept exactly
`0`, and `R² = 1 - SS_res / Σ G²` (total sum of squares of `G`, not
residual-about-mean); on `T = [1,2,3,4]`, `G = [2,4,6,8]` it returns
`(2, 0, 1)` exactly. -/
theorem claim_C4 :
    (∀ (m : ℕ) (G T : Fin m → ℝ),
      fit_einstein_relation_forced G T =
        ((∑ i, G i * T i) / (∑ i, T i * T i), 0,
         1 - (∑ i, (G i - ((∑ i, G i * T i) / (∑ i, T i * T i)) * T i) ^ 2)
              / (∑ i, G i ^ 2))) ∧
    fit_einstein_relation_forced ![(2 : ℝ), 4, 6, 8] ![1, 2, 3, 4] = (2, 0, 1) := by
  constructor
  · intro m G T
    rfl
  · unfold fit_einstein_relation_forced
    norm_num [Fin.sum_univ_succ, Matrix.cons_val_succ, Matrix.cons_val_zero]

/-- C5 counterexample: at `G = [1]`, `T = [0]` we have `Σ T² = 0`, yet the
forced-origin fit returns a plain numeric triple — `(NaN, 0.0, NaN)` plus a
RuntimeWarning in float semantics, `(0, 0, 0)` under the real-division
convention `x / 0 = 0` — instead of raising or returning an error value:
the function has no failure path at all. -/
theorem claim_C5_counterexample :
    fit_einstein_relation_forced ![(1 : ℝ)] ![0] = (0, 0, 0) ∧
    (∑ i, (![(0 : ℝ)] i) * (![(0 : ℝ)] i)) = 0 := by
  constructor
  · unfold fit_einstein_relation_forced
    norm_num [Fin.sum_univ_succ, Matrix.cons_val_zero]
  · norm_num [Fin.sum_univ_succ, Matrix.cons_val_zero]

/-- C5 amended: when `Σ T² = 0` the forced-origin fit does not fail; it
silently returns the numeric triple obtained by dividing by zero, with
`SS_res` collapsing to `Σ G²`. -/
theorem claim_C5_amended {m : ℕ} (G T : Fin m → ℝ)
    (hT : (∑ i, T i * T i) = 0) :
    fit_einstein_relation_forced G T
      = (0, 0, 1 - (∑ i, G i ^ 2) / (∑ i, G i ^ 2)) := by
  unfold fit_einstein_relation_forced
  dsimp only
  rw [hT, div_zero]
  simp [zero_mul, sub_zero]

/-- Witness for the amended C5 at `G = [1]`, `T = [0]`. -/
theorem claim_C5_amended_witness :
    fit_einstein_relation_forced ![(1 : ℝ)] ![0]
      = (0, 0, 1 - (∑ i, (![(1 : ℝ)] i) ^ 2) / (∑ i, (![(1 : ℝ)] i) ^ 2)) :=
  claim_C5_amended ![(1 : ℝ)] ![0] (by simp)

/-- C6: the regime classifier maps a value below 0.3 to linear, a value in
[0.3, 0.7) to geometric, a value at or above 0.7 to breakdown, and in
particular 0.29, 0.30, 0.69, 0.70 to linear, geometric, geometric,
breakdown. -/
theorem claim_C6 :
    (∀ a : ℝ, classify_regime a = "linear" ↔ a < 0.3) ∧
    (∀ a : ℝ, classify_regime a = "geometric" ↔ 0.3 ≤ a ∧ a < 0.7) ∧
    (∀ a : ℝ, classify_regime a = "breakdown" ↔ 0.7 ≤ a) ∧
    classify_regime 0.29 = "linear" ∧ classify_regime 0.30 = "geometric" ∧
    classify_regime 0.69 = "geometric" ∧ classify_regime 0.70 = "breakdown" := by
  refine ⟨fun a => ?_, fun a => ?_, fun a => ?_, ?_, ?_, ?_, ?_⟩
  · unfold classify_regime
    split_ifs with h1 h2
    · exact iff_of_true rfl h1
    · exact iff_of_false (by decide) h1
    · exact iff_of_false (by decide) h1
  · unfold classify_regime
    split_ifs with h1 h2
    · exact iff_of_false (by decide) fun hc => absurd h1 (not_lt.mpr hc.1)
    · exact iff_of_true rfl ⟨not_lt.mp h1, h2⟩
    · exact iff_of_false (by decide) fun hc => absurd hc.2 h2
  · unfold classify_regime
    split_ifs with h1 h2
    · exact iff_of_false (by decide) fun hc => by linarith
    · exact iff_of_false (by decide) fun hc => absurd h2 (not_lt.mpr hc)
    · exact iff_of_true rfl (not_lt.mp h2)
  · unfold classify_regime
    norm_num
  · unfold classify_regime
    norm_num
  · unfold classify_regime
    norm_num
  · unfold classify_regime
    norm_num

/-- C9: `compute_geometry_from_qfi` returns exactly the pair with
`RicciDiag_i = g_ii - mean_j g_jj` and
`EinsteinDiag_i = RicciDiag_i - (1/2)·trace(g)·g_ii`, and nothing else; on
`g = diag(1, 3)` this evaluates to `((-1, 1), (-3, -5))`. -/
theorem claim_C9 :
    (∀ (n : ℕ) (g : Matrix (Fin n) (Fin n) ℝ) (r : ℝ),
      compute_geometry_from_qfi g r =
        (fun i => g i i - (∑ j, g j j) / (n : ℝ),
         fun i => (g i i - (∑ j, g j j) / (n : ℝ)) - (1 / 2) * Matrix.trace g * g i i)) ∧
    compute_geometry_from_qfi !![(1 : ℝ), 0; 0, 3] 0 = (![(-1), 1], ![(-3), -5]) := by
  constructor
  · intro n g r
    unfold compute_geometry_from_qfi
    dsimp only
    simp only [Prod.mk.injEq]
    refine ⟨by trivial, funext fun i => ?_⟩
    norm_num
  · unfold compute_geometry_from_qfi
    dsimp only
    simp only [Prod.mk.injEq]
    constructor <;> funext i <;> fin_cases i <;>
      norm_num [Matrix.trace, Matrix.diag, Fin.sum_univ_succ]

/-- C8 counterexample: for `L = 1` the valid site range is `[0, 1)`, yet
`build_local_hamiltonian_tfim_2d 1 1 1 (some 1)` does not reject the
out-of-range site `1` — it silently returns an operator (the bogus
`-σ^z - I`, because factor positions outside `range(N)` are dropped by the
`k in ops` test). -/
theorem claim_C8_counterexample :
    build_local_hamiltonian_tfim_2d 1 1 1 (some 1)
      = Except.ok !![(-2 : ℝ), 0; 0, 0] ∧ ¬ (1 < 1 * 1) := by
  refine ⟨?_, by norm_num⟩
  show Except.ok (build_local_hamiltonian_core 1 1 1 1) = _
  congr 1
  have hn : localNeighbors 1 1 = [0] := rfl
  unfold build_local_hamiltonian_core local_bond_part
  rw [hn]
  ext a b
  fin_cases a <;> fin_cases b <;>
    norm_num [zzOp, xOp, build_operator, bitAt, sigma_z, sigma_x,
      Matrix.add_apply, Matrix.smul_apply, Matrix.of_apply,
      Finset.prod_range_one]

/-- C8 amended: the only rejected call is `site=None` (the source's
`ValueError`); for every integer site argument, in range or not, the
function silently returns an operator. -/
theorem claim_C8_amended (L : ℕ) (J h : ℝ) :
    (∀ site : ℕ, build_local_hamiltonian_tfim_2d L J h (some site)
        = Except.ok (build_local_hamiltonian_core L J h site)) ∧
    build_local_hamiltonian_tfim_2d L J h none
        = Except.error "Must specify site for local Hamiltonian" :=
  ⟨fun _ => rfl, rfl⟩

lemma sigma_x_transpose : sigma_xᵀ = sigma_x := by
  ext a b
  fin_cases a <;> fin_cases b <;> rfl

lemma sigma_z_transpose : sigma_zᵀ = sigma_z := by
  ext a b
  fin_cases a <;> fin_cases b <;> rfl

lemma build_operator_transpose (N : ℕ) (ops : ℕ → Option (Matrix (Fin 2) (Fin 2) ℝ))
    (hops : ∀ k, ((ops k).getD 1)ᵀ = (ops k).getD 1) :
    (build_operator N ops)ᵀ = build_operator N ops := by
  ext a b
  show build_operator N ops b a = build_operator N ops a b
  unfold build_operator
  simp only [Matrix.of_apply]
  refine Finset.prod_congr rfl fun k _ => ?_
  conv_lhs => rw [← hops k]
  rfl

lemma zzOp_transpose (L i j : ℕ) : (zzOp L i j)ᵀ = zzOp L i j := by
  refine build_operator_transpose _ _ fun k => ?_
  by_cases hk : k = i ∨ k = j
  · simp [hk, sigma_z_transpose]
  · simp [hk]

lemma xOp_transpose (L i : ℕ) : (xOp L i)ᵀ = xOp L i := by
  refine build_operator_transpose _ _ fun k => ?_
  by_cases hk : k = i
  · simp [hk, sigma_x_transpose]
  · simp [hk]

lemma zzOp_symm (L i j : ℕ) : zzOp L i j = zzOp L j i := by
  have hops : (fun k : ℕ => if k = i ∨ k = j then some sigma_z else none)
      = (fun k : ℕ => if k = j ∨ k = i then some sigma_z else none) := by
    funext k
    by_cases hk : k = i ∨ k = j
    · rw [if_pos hk, if_pos (or_comm.mp hk)]
    · rw [if_neg hk, if_neg fun hc => hk (or_comm.mp hc)]
  unfold zzOp
  rw [hops]

lemma local_bond_part_transpose (L : ℕ) (J : ℝ) (site : ℕ) :
    (local_bond_part L J site)ᵀ = local_bond_part L J site := by
  unfold local_bond_part
  generalize localNeighbors L site = l
  induction l with
  | nil => simp
  | cons n t ih =>
      simp only [List.map_cons, List.sum_cons, Matrix.transpose_add,
        Matrix.transpose_smul, zzOp_transpose]
      rw [ih]

lemma build_local_hamiltonian_core_transpose (L : ℕ) (J h : ℝ) (site : ℕ) :
    (build_local_hamiltonian_core L J h site)ᵀ = build_local_hamiltonian_core L J h site := by
  unfold build_local_hamiltonian_core
  rw [Matrix.transpose_add, Matrix.transpose_smul, local_bond_part_transpose,
    xOp_transpose]

lemma build_sparse_tfim_hamiltonian_transpose (L : ℕ) (J h : ℝ) (delta_h : ℕ → ℝ) :
    (build_sparse_tfim_hamiltonian L J h delta_h)ᵀ
      = build_sparse_tfim_hamiltonian L J h delta_h := by
  unfold build_sparse_tfim_hamiltonian
  rw [Matrix.transpose_add, Matrix.transpose_sum, Matrix.transpose_sum]
  congr 1
  · refine Finset.sum_congr rfl fun i _ => ?_
    rw [Matrix.transpose_add]
    congr 1
    · split_ifs <;> simp [Matrix.transpose_smul, zzOp_transpose]
    · split_ifs <;> simp [Matrix.transpose_smul, zzOp_transpose]
  · refine Finset.sum_congr rfl fun i _ => ?_
    rw [Matrix.transpose_smul, xOp_transpose]

lemma map_ofReal_conjTranspose {M : ℕ} (A : Matrix (Fin M) (Fin M) ℝ) (hA : Aᵀ = A) :
    (A.map fun r => (r : ℂ))ᴴ = A.map fun r => (r : ℂ) := by
  ext a b
  simp only [Matrix.conjTranspose_apply, Matrix.map_apply, Complex.star_def,
    Complex.conj_ofReal]
  exact congrArg _ (congrFun (congrFun hA a) b)

/-- A real symmetric matrix has a real expectation value in every complex
state. -/
lemma expectation_real_of_symm {M : ℕ} (A : Matrix (Fin M) (Fin M) ℝ) (hA : Aᵀ = A)
    (psi : Fin M → ℂ) :
    (vdot psi ((A.map fun r => (r : ℂ)).mulVec psi)).im = 0 := by
  have hB := map_ofReal_conjTranspose A hA
  have h1 : vdot psi ((A.map fun r => (r : ℂ)).mulVec psi)
      = vdot ((A.map fun r => (r : ℂ)).mulVec psi) psi :=
    vdot_mulVec_hermitian _ hB psi psi
  have h2 := vdot_conj psi ((A.map fun r => (r : ℂ)).mulVec psi)
  have h3 : star (vdot psi ((A.map fun r => (r : ℂ)).mulVec psi))
      = vdot psi ((A.map fun r => (r : ℂ)).mulVec psi) := by rw [h2, ← h1]
  have h4 := congrArg Complex.im h3
  simp only [Complex.star_def, Complex.conj_im] at h4
  linarith

/-- C10: for every `L`, `J`, `h` and perturbation vector, the full TFIM
Hamiltonian equals its own transpose, every local Hamiltonian equals its
own transpose (proved for every site argument, hence in particular for
sites in `[0, L²)`), and consequently every expectation value
`⟨ψ|H|ψ⟩` is real. -/
theorem claim_C10 (L : ℕ) (J h : ℝ) (delta_h : ℕ → ℝ) :
    ((build_sparse_tfim_hamiltonian L J h delta_h)ᵀ
        = build_sparse_tfim_hamiltonian L J h delta_h) ∧
    (∀ site : ℕ, (build_local_hamiltonian_core L J h site)ᵀ
        = build_local_hamiltonian_core L J h site) ∧
    (∀ psi : Fin (2 ^ (L * L)) → ℂ,
      (vdot psi (((build_sparse_tfim_hamiltonian L J h delta_h).map
          fun r => (r : ℂ)).mulVec psi)).im = 0) ∧
    (∀ (site : ℕ) (psi : Fin (2 ^ (L * L)) → ℂ),
      (vdot psi (((build_local_hamiltonian_core L J h site).map
          fun r => (r : ℂ)).mulVec psi)).im = 0) :=
  ⟨build_sparse_tfim_hamiltonian_transpose L J h delta_h,
   fun site => build_local_hamiltonian_core_transpose L J h site,
   fun psi => expectation_real_of_symm _
     (build_sparse_tfim_hamiltonian_transpose L J h delta_h) psi,
   fun site psi => expectation_real_of_symm _
     (build_local_hamiltonian_core_transpose L J h site) psi⟩

/-- C2: for `L ∈ {2,3}`, with the same `J`, `h` and zero perturbation,
summing over all sites the local Hamiltonians returned by
`build_local_hamiltonian_tfim_2d` with each bond's contribution counted once
across its two endpoints — i.e. the local operator minus half of its bond
part, `H_s - (1/2)·bond_s = (1/2)·bond_s + field_s` — reproduces the full
Hamiltonian of `build_sparse_tfim_hamiltonian` exactly.  The last conjunct
records that the returned local operator is precisely bond part plus field
term. -/
theorem claim_C2 (J h : ℝ) :
    (∑ s ∈ Finset.range (2 * 2),
        (build_local_hamiltonian_core 2 J h s - (2 : ℝ)⁻¹ • local_bond_part 2 J s)
      = build_sparse_tfim_hamiltonian 2 J h fun _ => 0) ∧
    (∑ s ∈ Finset.range (3 * 3),
        (build_local_hamiltonian_core 3 J h s - (2 : ℝ)⁻¹ • local_bond_part 3 J s)
      = build_sparse_tfim_hamiltonian 3 J h fun _ => 0) ∧
    ∀ (L site : ℕ), build_local_hamiltonian_core L J h site
        = local_bond_part L J site + (-h) • xOp L site := by
  refine ⟨?_, ?_, fun L site => rfl⟩
  · have hn0 : localNeighbors 2 0 = [1, 2] := rfl
    have hn1 : localNeighbors 2 1 = [0, 3] := rfl
    have hn2 : localNeighbors 2 2 = [3, 0] := rfl
    have hn3 : localNeighbors 2 3 = [2, 1] := rfl
    norm_num [Finset.sum_range_succ, build_local_hamiltonian_core, local_bond_part,
      build_sparse_tfim_hamiltonian, hn0, hn1, hn2, hn3,
      List.map_cons, List.map_nil, List.sum_cons, List.sum_nil]
    rw [zzOp_symm 2 1 0, zzOp_symm 2 2 0, zzOp_symm 2 3 2, zzOp_symm 2 3 1]
    module
  · have hn0 : localNeighbors 3 0 = [1, 3] := rfl
    have hn1 : localNeighbors 3 1 = [0, 2, 4] := rfl
    have hn2 : localNeighbors 3 2 = [1, 5] := rfl
    have hn3 : localNeighbors 3 3 = [4, 0, 6] := rfl
    have hn4 : localNeighbors 3 4 = [3, 5, 1, 7] := rfl
    have hn5 : localNeighbors 3 5 = [4, 2, 8] := rfl
    have hn6 : localNeighbors 3 6 = [7, 3] := rfl
    have hn7 : localNeighbors 3 7 = [6, 8, 4] := rfl
    have hn8 : localNeighbors 3 8 = [7, 5] := rfl
    norm_num [Finset.sum_range_succ, build_local_hamiltonian_core, local_bond_part,
      build_sparse_tfim_hamiltonian, hn0, hn1, hn2, hn3, hn4, hn5, hn6, hn7, hn8,
      List.map_cons, List.map_nil, List.sum_cons, List.sum_nil]
    rw [zzOp_symm 3 1 0, zzOp_symm 3 2 1, zzOp_symm 3 3 0, zzOp_symm 3 4 3,
      zzOp_symm 3 4 1, zzOp_symm 3 5 4, zzOp_symm 3 5 2, zzOp_symm 3 6 3,
      zzOp_symm 3 7 6, zzOp_symm 3 7 4, zzOp_symm 3 8 7, zzOp_symm 3 8 5]
    module
